import Mathlib

/-!
Shallow embedding of the sraQ intent-dataset generation script.

The script builds a randomized work list of scenario-generation jobs,
dispatches them to an external completion service through a bounded worker
pool with a retry budget, validates the returned JSON payload against a
small command grammar, and assembles the validated results into dataset
rows.  JavaScript strings are embedded as `List Char`, JSON primitive
values as `JsVal` (with `Option JsVal` distinguishing an absent /
`undefined` field from a present one), and exceptions as `Except String`.
-/

namespace SraQ

/-- JavaScript strings, embedded as lists of characters. -/
abbrev JStr := List Char

/-- Whitespace characters removed by the JavaScript `trim` method. -/
def isWsChar (c : Char) : Bool :=
  c == ' ' || c == '\t' || c == '\n' || c == '\r' || c == '\x0b' || c == '\x0c'

/-- JavaScript `String.prototype.trim`: strip whitespace from both ends. -/
def jsTrim (s : JStr) : JStr :=
  List.rdropWhile isWsChar (List.dropWhile isWsChar s)

/-- A JSON primitive value as it can appear in a parsed payload field. -/
inductive JsVal where
  | str (s : JStr)
  | num (n : Int)
  | bool (b : Bool)
  | null
deriving DecidableEq

/-- JavaScript `String(v)` rendering of a primitive value. -/
def jsToString : JsVal → JStr
  | .str s => s
  | .num n => (toString n).data
  | .bool b => if b then "true".data else "false".data
  | .null => "null".data

/-- JavaScript nullish coalescing `a ?? b` for two possibly-absent values
(`none` plays the role of `undefined`). -/
def jsCoalesce (a b : Option JsVal) : Option JsVal :=
  match a with
  | none => b
  | some .null => b
  | some v => some v

/-- JavaScript `a ?? d` where the right operand is a plain value. -/
def jsCoalesceD (a : Option JsVal) (d : JsVal) : JsVal :=
  match a with
  | none => d
  | some .null => d
  | some v => v

/-- Conversation roles appearing in a dataset row. -/
inductive Role where
  | system
  | user
  | assistant
deriving DecidableEq

/-- One conversation turn of a dataset row (`thinking` is `null`able). -/
structure MessageRecord where
  content : JStr
  role : Role
  thinking : Option JStr
deriving DecidableEq

/-- The five intent actions. -/
inductive ActionKind where
  | reply
  | start_task
  | update_task
  | cancel_task
  | noop
deriving DecidableEq

/-- A sanitized ongoing-task record. -/
structure TaskRecord where
  id : JStr
  summary : JStr
  last_update : JStr
deriving DecidableEq

/-- A validated generation result for one job. -/
structure GenerationResult where
  user : JStr
  tasks : List TaskRecord
  reasoning : JStr
  final : JStr
deriving DecidableEq

/-- A raw task object of the parsed payload: each tried alternate field is
either absent (`none`), or a primitive JSON value (possibly `null`). -/
structure TaskObj where
  id : Option JsVal
  task_id : Option JsVal
  identifier : Option JsVal
  summary : Option JsVal
  title : Option JsVal
  description : Option JsVal
  last_update : Option JsVal
  lastUpdate : Option JsVal
  notes : Option JsVal
deriving DecidableEq

/-- The sanitized id of a raw task: `String(task.id ?? task.task_id ??
task.identifier ?? "task-temp").trim()`. -/
def resolvedId (task : TaskObj) : JStr :=
  jsTrim (jsToString (jsCoalesceD (jsCoalesce (jsCoalesce task.id task.task_id)
    task.identifier) (.str "task-temp".data)))

/-- The sanitized summary of a raw task: `String(task.summary ?? task.title ??
task.description ?? "Pending summary").trim()`. -/
def resolvedSummary (task : TaskObj) : JStr :=
  jsTrim (jsToString (jsCoalesceD (jsCoalesce (jsCoalesce task.summary task.title)
    task.description) (.str "Pending summary".data)))

/-- The sanitized last update of a raw task: `String(task.last_update ??
task.lastUpdate ?? task.notes ?? "Awaiting details").trim()`. -/
def resolvedLastUpdate (task : TaskObj) : JStr :=
  jsTrim (jsToString (jsCoalesceD (jsCoalesce (jsCoalesce task.last_update task.lastUpdate)
    task.notes) (.str "Awaiting details".data)))

/-- Sanitation of one task object, mirroring the body of the `tasks.map`
callback in `sanitizeTasks`. -/
def sanitizeTask (task : TaskObj) : Except String TaskRecord :=
  let id := resolvedId task
  let summary := resolvedSummary task
  let lastUpdate := resolvedLastUpdate task
  if id = [] then .error "Task id missing"
  else if summary = [] then .error "Task summary missing"
  else if lastUpdate = [] then .error "Task last_update missing"
  else .ok ⟨id, summary, lastUpdate⟩

/-- `sanitizeTasks` on an array of task objects: the first failing task
aborts sanitation with its error. -/
def sanitizeTasks (tasks : List TaskObj) : Except String (List TaskRecord) :=
  tasks.mapM sanitizeTask

/-- `validateReasoning`: `String(reasoning ?? "").trim()` must be non-empty. -/
def validateReasoning (reasoning : Option JsVal) : Except String JStr :=
  let text := jsTrim (jsToString (jsCoalesceD reasoning (.str [])))
  if text = [] then .error "Reasoning is empty" else .ok text

/-- The per-action `validation` closure of `ACTION_GUIDANCE`. -/
def actionValidation (action : ActionKind) (final : JStr) (tasks : List TaskRecord) : Bool :=
  match action with
  | .reply => "reply(".data.isPrefixOf final && [')'].isSuffixOf final
  | .start_task => "start_task(".data.isPrefixOf final && [')'].isSuffixOf final
  | .update_task =>
    if "update_task(".data.isPrefixOf final && [')'].isSuffixOf final then
      let inside := (final.drop "update_task(".data.length).dropLast
      match inside.findIdx? (fun c => c == ',') with
      | none => false
      | some commaIndex => tasks.any (fun task => task.id == jsTrim (inside.take commaIndex))
    else false
  | .cancel_task =>
    if "cancel_task(".data.isPrefixOf final && [')'].isSuffixOf final then
      let inside := (final.drop "cancel_task(".data.length).dropLast
      match inside.findIdx? (fun c => c == ',') with
      | none => false
      | some commaIndex => tasks.any (fun task => task.id == jsTrim (inside.take commaIndex))
    else false
  | .noop => final == "noop".data

/-- `validateFinal`: coerce, trim, require non-empty, then run the
action-specific grammar check. -/
def validateFinal (action : ActionKind) (final : Option JsVal) (tasks : List TaskRecord) :
    Except String JStr :=
  let text := jsTrim (jsToString (jsCoalesceD final (.str [])))
  if text = [] then .error "Final output is empty"
  else if actionValidation action text tasks then .ok text
  else .error "Final command failed validation"

/-- `ensureTaskCount`: at least one task always, at least two for the
actions that pick among existing tasks. -/
def ensureTaskCount (action : ActionKind) (tasks : List TaskRecord) : Except String Unit :=
  if tasks.length = 0 then .error "At least one ongoing task is required"
  else if [ActionKind.update_task, ActionKind.cancel_task, ActionKind.noop].contains action
      && decide (tasks.length < 2) then
    .error "scenarios must include at least two ongoing tasks"
  else .ok ()

/-- A user message style cycled through by the job builder. -/
structure MessageStyle where
  name : String
  description : String
  shortHint : String
deriving DecidableEq

/-- The five fixed message styles (`MESSAGE_STYLES`). -/
def MESSAGE_STYLES : List MessageStyle :=
  [⟨"formal",
    "Well-structured business English with complete sentences and proper punctuation.",
    "formal complete sentences"⟩,
   ⟨"minimal",
    "Extremely short or telegraphic phrasing (3-6 words), all lowercase, minimal or no punctuation.",
    "very short lowercase snippet"⟩,
   ⟨"fragment",
    "Intentionally unfinished thought, trailing clause, or abruptly cut-off sentence, potentially ending mid-word.",
    "incomplete or truncated clause"⟩,
   ⟨"casual",
    "Relaxed conversational tone with common abbreviations, mixed casing, and light filler words.",
    "casual conversational"⟩,
   ⟨"urgent",
    "Short, urgent-sounding request with imperative language, may omit subjects or punctuation.",
    "urgent clipped command"⟩]

/-- The per-action theme lists (`THEMES`). -/
def THEMES : ActionKind → List String
  | .reply =>
    ["Status reminder on deliverable",
     "Clarifying timeline for project milestone",
     "Responding to user gratitude and quick question",
     "Handling simple factual question",
     "Providing immediate reassurance after partial update"]
  | .start_task =>
    ["New research initiative request",
     "Planning upcoming event logistics",
     "Launching product evaluation",
     "Drafting policy or documentation",
     "Coordinating multi-team rollout"]
  | .update_task =>
    ["Vendor follow-up with new info",
     "Technical issue reproduction progress",
     "Pending approval status advance",
     "Logistics arrangement milestone",
     "Content creation status sync"]
  | .cancel_task =>
    ["User retracts prior request",
     "Task blocked by external decision",
     "Requirements changed midstream",
     "Duplicate initiative spotted",
     "Budget removed for project"]
  | .noop =>
    ["Awaiting signatures and data exports",
     "Multiple investigation tools still running",
     "External vendor automation mid-flight",
     "Coordinated workflow waiting on webhook",
     "Async compliance checks pending"]

/-- The key order of `ACTION_GUIDANCE`, i.e. `Object.keys` insertion order. -/
def ACTIONS : List ActionKind :=
  [.reply, .start_task, .update_task, .cancel_task, .noop]

/-- The default total row budget (`DEFAULT_ROWS`). -/
def DEFAULT_ROWS : Nat := 1000

/-- A partition configuration (the `name` union also admits `"custom"` for
the command-line override). -/
structure PartitionConfig where
  name : String
  perAction : Nat
  output : String
deriving DecidableEq

/-- The default train/test partitions (`basePartitions`). -/
def basePartitions : List PartitionConfig :=
  [⟨"train", DEFAULT_ROWS / ACTIONS.length, "intent-dataset-train.jsonl"⟩,
   ⟨"test", DEFAULT_ROWS / (ACTIONS.length * 10), "intent-dataset-test.jsonl"⟩]

/-- The retry budget of the worker loop (`MAX_ATTEMPTS`). -/
def MAX_ATTEMPTS : Nat := 4

/-- One unit of generation work (`Job`). -/
structure Job where
  action : ActionKind
  partition : String
  theme : String
  index : Nat
  globalIndex : Nat
  messageStyle : MessageStyle
deriving DecidableEq

/-- The jobs pushed for one action kind: themes and message styles are
selected cyclically and the global index advances by one per job. -/
def jobsForAction (p : PartitionConfig) (action : ActionKind) (g : Nat) : List Job :=
  (List.range p.perAction).map (fun i =>
    { action := action
      partition := p.name
      theme := (THEMES action).getD (i % (THEMES action).length) ""
      index := i
      globalIndex := g + i
      messageStyle := MESSAGE_STYLES.getD (i % MESSAGE_STYLES.length) ⟨"", "", ""⟩ })

/-- The unshuffled job list of `buildJobs`: `ACTIONS.forEach` threading the
running global index. -/
def buildJobsList (p : PartitionConfig) : List ActionKind → Nat → List Job
  | [], _ => []
  | a :: rest, g => jobsForAction p a g ++ buildJobsList p rest (g + p.perAction)

/-- The JavaScript swap statement `[array[i], array[j]] = [array[j], array[i]]`
(out-of-range indices leave the list unchanged; the shuffle only produces
in-range ones). -/
def swapAt (l : List α) (i j : Nat) : List α :=
  match l[i]?, l[j]? with
  | some a, some b => (l.set i b).set j a
  | _, _ => l

/-- The decreasing-index loop of `shuffle`; the fuel argument is the current
loop index `i`, and `choice i % (i + 1)` embeds
`Math.floor(Math.random() * (i + 1))`, an arbitrary draw from `0..i`. -/
def shuffleGo (choice : Nat → Nat) : Nat → List α → List α
  | 0, l => l
  | n + 1, l => shuffleGo choice n (swapAt l (n + 1) (choice (n + 1) % (n + 2)))

/-- The in-place Fisher-Yates shuffle of the script, parameterized by the
random draws `choice`. -/
def shuffle (choice : Nat → Nat) (l : List α) : List α :=
  shuffleGo choice (l.length - 1) l

/-- `buildJobs`: enumerate the action cross-product, then shuffle. -/
def buildJobs (p : PartitionConfig) (offset : Nat) (choice : Nat → Nat) : List Job :=
  shuffle choice (buildJobsList p ACTIONS offset)

/-- `parseOverride`: the optional `--rows=` argument. `none` means the flag
is absent; `some none` a non-finite parse (`NaN` or infinite); and
`some (some v)` a finite value, restricted here to integral ones. -/
def parseOverride (rowsArg : Option (Option Int)) : Except String (List PartitionConfig) :=
  match rowsArg with
  | none => .ok basePartitions
  | some value =>
    match value with
    | none => .error "--rows must be a positive number"
    | some v =>
      if v ≤ 0 then .error "--rows must be a positive number"
      else
        let perActionTotal := Int.fdiv v ACTIONS.length
        if perActionTotal ≤ 0 then .error "--rows value too small to cover all action types"
        else .ok [⟨"custom", perActionTotal.toNat, "intent-dataset-" ++ toString v ++ ".jsonl"⟩]

/-- JSON string escaping used by `JSON.stringify` (common escapes). -/
def jsonEscapeChar (c : Char) : JStr :=
  if c = '"' then ['\\', '"']
  else if c = '\\' then ['\\', '\\']
  else if c = '\n' then ['\\', 'n']
  else if c = '\t' then ['\\', 't']
  else if c = '\r' then ['\\', 'r']
  else [c]

/-- A JSON string literal for a task field. -/
def jsonString (s : JStr) : JStr :=
  '"' :: s.foldr (fun c acc => jsonEscapeChar c ++ acc) ['"']

/-- One task object as serialized by `JSON.stringify(tasks, null, 2)`. -/
def taskObjJson (t : TaskRecord) : JStr :=
  "  \x7b\n    \"id\": ".data ++ jsonString t.id ++
  ",\n    \"summary\": ".data ++ jsonString t.summary ++
  ",\n    \"last_update\": ".data ++ jsonString t.last_update ++
  "\n  \x7d".data

/-- `JSON.stringify(tasks, null, 2)` for the task ledger snapshot. -/
def tasksJson (tasks : List TaskRecord) : JStr :=
  match tasks with
  | [] => "[]".data
  | t :: rest =>
    "[\n".data ++
    (rest.foldl (fun acc u => acc ++ ",\n".data ++ taskObjJson u) (taskObjJson t)) ++
    "\n]".data

/-- A fully assembled dataset row (`DatasetRow`). -/
structure DatasetRow where
  developer : JStr
  tasks : List TaskRecord
  user : JStr
  reasoning : JStr
  final : JStr
  messages : List MessageRecord
deriving DecidableEq

/-- `buildDatasetRow`: the four-turn message sequence derived from a
validated result (`dev` is the developer prompt read at startup). -/
def buildDatasetRow (dev : JStr) (raw : GenerationResult) : DatasetRow :=
  { developer := dev
    tasks := raw.tasks
    user := raw.user
    reasoning := raw.reasoning
    final := raw.final
    messages :=
      [⟨dev, .system, none⟩,
       ⟨"## Ongoing tasks:\n".data ++ tasksJson raw.tasks, .system, none⟩,
       ⟨raw.user, .user, none⟩,
       ⟨raw.final, .assistant, some raw.reasoning⟩] }

/-- The fresh record pushed by `mergeMessages` when the role changes:
`{content: current.content.trim(), role, thinking: current.thinking ?
current.thinking.trim() || null : null}`. -/
def pushFreshMessage (current : MessageRecord) : MessageRecord :=
  { content := jsTrim current.content
    role := current.role
    thinking :=
      match current.thinking with
      | none => none
      | some t =>
        if t = [] then none
        else if jsTrim t = [] then none
        else some (jsTrim t) }

/-- The in-place update of the previous record when `mergeMessages` sees a
repeated role. -/
def mergeIntoLast (last current : MessageRecord) : MessageRecord :=
  { content := jsTrim (last.content ++ '\n' :: current.content)
    role := last.role
    thinking :=
      match current.thinking with
      | none => last.thinking
      | some ct =>
        if ct = [] then last.thinking
        else
          let combined :=
            match last.thinking with
            | none => jsTrim ct
            | some lt => if lt = [] then jsTrim ct else jsTrim (lt ++ '\n' :: ct)
          if combined = [] then none else some combined }

/-- The loop of `mergeMessages`; the accumulator holds the merged output in
reverse so its head is the `merged[merged.length - 1]` of the script. -/
def mergeMessagesAux : List MessageRecord → List MessageRecord → List MessageRecord
  | acc, [] => acc.reverse
  | [], current :: rest => mergeMessagesAux [pushFreshMessage current] rest
  | last :: accRest, current :: rest =>
    if last.role = current.role then
      mergeMessagesAux (mergeIntoLast last current :: accRest) rest
    else
      mergeMessagesAux (pushFreshMessage current :: last :: accRest) rest

/-- `mergeMessages`: collapse runs of same-role consecutive turns. -/
def mergeMessages (messages : List MessageRecord) : List MessageRecord :=
  mergeMessagesAux [] messages

/-- The retry loop of `worker` for one claimed job: `gen a` is the outcome
of attempt number `a` (the whole `generateExample` call), the fuel counts
the retries still allowed, and the second component counts the attempts
made.  On the last allowed attempt the error is rethrown. -/
def attemptGo (gen : Nat → Except String α) : Nat → Nat → Except String α × Nat
  | attempt, 0 => (gen attempt, 1)
  | attempt, fuel + 1 =>
    match gen attempt with
    | .ok r => (.ok r, 1)
    | .error _ =>
      let next := attemptGo gen (attempt + 1) fuel
      (next.1, next.2 + 1)

/-- A job attempt loop starting at attempt 1 with the `MAX_ATTEMPTS` budget. -/
def runJobAttempts (gen : Nat → Except String α) : Except String α × Nat :=
  attemptGo gen 1 (MAX_ATTEMPTS - 1)

/-- The run of one partition over its job list: every job is driven through
the retry loop, and the first exhausted budget aborts the whole run (the
rejection of `Promise.all` in `runJobs`). -/
def runJobsRun (oracle : Job → Nat → Except String GenerationResult) (jobs : List Job) :
    Except String (List GenerationResult) :=
  jobs.mapM (fun j => (runJobAttempts (oracle j)).1)

/-- The artifacts `main` hands to the writer for one partition: the full
rows and the merged LoRA encoding, or nothing at all when the run aborted. -/
def partitionArtifacts (dev : JStr) (oracle : Job → Nat → Except String GenerationResult)
    (jobs : List Job) : Option (List DatasetRow × List (List MessageRecord)) :=
  match runJobsRun oracle jobs with
  | .error _ => none
  | .ok results =>
    let datasetRows := results.map (buildDatasetRow dev)
    some (datasetRows, datasetRows.map (fun row => mergeMessages row.messages))

/-- The scheduler state shared by the worker pool: the claim cursor
(`pointer`), one claimed-index slot per worker, and the pre-sized results
buffer. -/
structure SchedState (α : Type) where
  jobPtr : Nat
  claimed : List (Option Nat)
  results : List (Option α)
deriving DecidableEq

/-- The initial scheduler state: cursor at 0, no claims, empty pre-sized
results buffer (`new Array(jobs.length)`). -/
def initSched (workers : Nat) (jobs : List Job) : SchedState α :=
  ⟨0, List.replicate workers none, List.replicate jobs.length none⟩

/-- One atomic step of worker `w`: either claim the next cursor index
(`const currentIndex = pointer++`) or complete the claimed job and write
its validated result at the job's own index
(`results[currentIndex] = result`).  `f` maps a job to the validated
result its retry loop eventually produced. -/
def workerStep (jobs : List Job) (f : Job → α) (s : SchedState α) (w : Nat) : SchedState α :=
  match s.claimed[w]? with
  | none => s
  | some none =>
    if s.jobPtr < jobs.length then
      { s with jobPtr := s.jobPtr + 1, claimed := s.claimed.set w (some s.jobPtr) }
    else s
  | some (some i) =>
    match jobs[i]? with
    | some job => { s with results := s.results.set i (some (f job)),
                           claimed := s.claimed.set w none }
    | none => { s with claimed := s.claimed.set w none }

/-- Run the worker pool under an arbitrary interleaving: `sched` lists which
worker takes the next atomic step. -/
def runSched (jobs : List Job) (f : Job → α) (workers : Nat) (sched : List Nat) :
    SchedState α :=
  sched.foldl (workerStep jobs f) (initSched workers jobs)

/-- The concatenated job lists `main` builds across partitions, threading
the running global offset (`offset += results.length`). -/
def buildPlan : List PartitionConfig → Nat → (Nat → Nat) → List Job
  | [], _, _ => []
  | p :: rest, offset, choice =>
    let jobs := buildJobs p offset choice
    jobs ++ buildPlan rest (offset + jobs.length) choice

/-- The jobs of a whole invocation of `main`: a configuration error from
`parseOverride` aborts before any job is built. -/
def mainJobPlan (rowsArg : Option (Option Int)) (choice : Nat → Nat) :
    Except String (List Job) :=
  match parseOverride rowsArg with
  | .error e => .error e
  | .ok partitions => .ok (buildPlan partitions 0 choice)

/-- An output message is normalized: trimmed content, and a thinking
attachment that is only ever a trimmed, non-empty string. -/
def normalizedMsg (m : MessageRecord) : Prop :=
  m.content = jsTrim m.content ∧ ∀ t, m.thinking = some t → (t = jsTrim t ∧ t ≠ [])

/-- Adjacent turns have distinct roles. -/
def rolesAlternate (l : List MessageRecord) : Prop :=
  List.Chain' (fun a b => a.role ≠ b.role) l

/-- The final-grammar sentence of the specification for the two
id-referencing actions, stated declaratively: the string is the action
name, an opening paren, the part before the first comma, the comma, the
rest, and a closing paren, and the part before the first comma trims to
the id of some task in the sanitized list.  (Modelled from the spec to
compare against the code-level check.) -/
def SpecCallGrammar (callName : JStr) (final : JStr) (tasks : List TaskRecord) : Prop :=
  ∃ a b, final = callName ++ '(' :: (a ++ ',' :: b ++ [')']) ∧ ',' ∉ a ∧
    ∃ t ∈ tasks, jsTrim a = t.id

/-- A raw task object with every alternate field absent. -/
def blankTaskObj : TaskObj :=
  ⟨none, none, none, none, none, none, none, none, none⟩

/-- A raw task object exercising coercion and trimming on present fields. -/
def sampleTaskObj : TaskObj :=
  ⟨some (.str " task-1 ".data), none, none,
   none, some (.str "Follow up with vendor".data), none,
   some (.num 7), none, none⟩

/-- The two-task ledger of the specification scenario. -/
def demoTasks : List TaskRecord :=
  [⟨"task-1".data, "Summary one".data, "Update one".data⟩,
   ⟨"task-2".data, "Summary two".data, "Update two".data⟩]

/-- A concrete job used to instantiate the scheduler and retry theorems. -/
def sampleJob : Job :=
  ⟨.reply, "train", "Status reminder on deliverable", 0, 0,
   ⟨"formal",
    "Well-structured business English with complete sentences and proper punctuation.",
    "formal complete sentences"⟩⟩

/-- A second concrete job differing from `sampleJob`. -/
def sampleJob2 : Job :=
  ⟨.update_task, "train", "Vendor follow-up with new info", 1, 1,
   ⟨"minimal",
    "Extremely short or telegraphic phrasing (3-6 words), all lowercase, minimal or no punctuation.",
    "very short lowercase snippet"⟩⟩

/-- An oracle whose every attempt returns unusable text. -/
def oracleAlwaysFails : Job → Nat → Except String GenerationResult :=
  fun _ _ => .error "not JSON"

/-- A concrete validated result used to instantiate the scheduler theorem. -/
def sampleResultFor (j : Job) : GenerationResult :=
  ⟨"user text".data, demoTasks, "reasoning".data,
   if j.action = .reply then "reply(ok)".data else "update_task(task-1, done)".data⟩

lemma except_isOk_iff {α : Type} (e : Except String α) : e.isOk = true ↔ ∃ a, e = .ok a := by
  cases e <;> simp [Except.isOk, Except.toBool]

/-- C7: the task-count check fails exactly when the task list is empty or
when the action is one of update_task, cancel_task, noop and fewer than two
tasks are present; it succeeds in every other case. -/
theorem ensureTaskCount_ok_iff (action : ActionKind) (tasks : List TaskRecord) :
    (ensureTaskCount action tasks).isOk = true ↔
      ¬(tasks = [] ∨
        (action ∈ [ActionKind.update_task, ActionKind.cancel_task, ActionKind.noop] ∧
          tasks.length < 2)) := by
  have c1 : ([ActionKind.update_task, ActionKind.cancel_task,
      ActionKind.noop].contains ActionKind.reply) = false := rfl
  have c2 : ([ActionKind.update_task, ActionKind.cancel_task,
      ActionKind.noop].contains ActionKind.start_task) = false := rfl
  have c3 : ([ActionKind.update_task, ActionKind.cancel_task,
      ActionKind.noop].contains ActionKind.update_task) = true := rfl
  have c4 : ([ActionKind.update_task, ActionKind.cancel_task,
      ActionKind.noop].contains ActionKind.cancel_task) = true := rfl
  have c5 : ([ActionKind.update_task, ActionKind.cancel_task,
      ActionKind.noop].contains ActionKind.noop) = true := rfl
  cases action <;> cases tasks <;>
    simp [ensureTaskCount, Except.isOk, Except.toBool, c1, c2, c3, c4, c5] <;>
    split_ifs <;> simp_all <;> exact List.length_eq_zero.mp (by omega)

/-- C10: the reasoning and final validators behave on any non-null value
exactly as on its string rendering, and reject a present value as empty
exactly when it is `null` or its string form trims to the empty string;
an absent value is likewise rejected. -/
theorem validators_coerce_to_string (v : JsVal) (action : ActionKind)
    (tasks : List TaskRecord) :
    (v ≠ JsVal.null →
      validateReasoning (some v) = validateReasoning (some (.str (jsToString v))) ∧
      validateFinal action (some v) tasks =
        validateFinal action (some (.str (jsToString v))) tasks) ∧
    ((validateReasoning (some v)).isOk = true ↔
      ¬(v = JsVal.null ∨ jsTrim (jsToString v) = [])) ∧
    (validateReasoning none).isOk = false := by
  refine ⟨fun hv => ?_, ?_, ?_⟩
  · cases v with
    | str s => exact ⟨rfl, rfl⟩
    | num n => exact ⟨rfl, rfl⟩
    | bool b => exact ⟨rfl, rfl⟩
    | null => exact absurd rfl hv
  · cases v with
    | str s =>
      by_cases h : jsTrim s = [] <;>
        simp [validateReasoning, jsCoalesceD, jsToString, h, Except.isOk, Except.toBool]
    | num n =>
      by_cases h : jsTrim (jsToString (.num n)) = [] <;>
        simp [validateReasoning, jsCoalesceD, jsToString, Except.isOk, Except.toBool] at h ⊢ <;>
        simp [h]
    | bool b =>
      by_cases h : jsTrim (jsToString (.bool b)) = [] <;>
        simp [validateReasoning, jsCoalesceD, jsToString, Except.isOk, Except.toBool] at h ⊢ <;>
        simp [h]
    | null =>
      simp [validateReasoning, jsCoalesceD, jsToString, jsTrim, Except.isOk, Except.toBool]
  · simp [validateReasoning, jsCoalesceD, jsToString, jsTrim, Except.isOk, Except.toBool]

/-- Witness for C10 at concrete non-string values: the number 0 is handled
as the string "0" and the boolean false is accepted as "false". -/
theorem validators_coerce_to_string_witness :
    validateReasoning (some (.num 0)) = validateReasoning (some (.str "0".data)) ∧
    (validateReasoning (some (.bool false))).isOk = true := by
  have h0 := validators_coerce_to_string (.num 0) .noop []
  have hb := validators_coerce_to_string (.bool false) .noop []
  exact ⟨(h0.1 (by simp)).1, hb.2.1.mpr (by decide)⟩

/-- C2 counterexample: a task object with every alternate field absent is
accepted by sanitation, and the mandatory id, summary and last_update are
filled in from the placeholders rather than rejected. -/
theorem sanitize_accepts_blank_task :
    sanitizeTasks [blankTaskObj] =
      .ok [⟨"task-temp".data, "Pending summary".data, "Awaiting details".data⟩] := by
  rfl

lemma sanitizeTask_ok (t : TaskObj)
    (h : resolvedId t ≠ [] ∧ resolvedSummary t ≠ [] ∧ resolvedLastUpdate t ≠ []) :
    sanitizeTask t = .ok ⟨resolvedId t, resolvedSummary t, resolvedLastUpdate t⟩ := by
  obtain ⟨h1, h2, h3⟩ := h
  simp [sanitizeTask, h1, h2, h3]

lemma sanitizeTask_error (t : TaskObj)
    (h : ¬(resolvedId t ≠ [] ∧ resolvedSummary t ≠ [] ∧ resolvedLastUpdate t ≠ [])) :
    ∃ e, sanitizeTask t = .error e := by
  unfold sanitizeTask
  by_cases h1 : resolvedId t = []
  · exact ⟨"Task id missing", by simp [h1]⟩
  · by_cases h2 : resolvedSummary t = []
    · exact ⟨"Task summary missing", by simp [h1, h2]⟩
    · by_cases h3 : resolvedLastUpdate t = []
      · exact ⟨"Task last_update missing", by simp [h1, h2, h3]⟩
      · exact absurd ⟨h1, h2, h3⟩ h

/-- C2 amended: sanitation succeeds exactly when, for every task object,
the resolved id, summary and last_update (the coalescing chain over the
alternate field names, with the non-empty placeholder when every alternate
is nullish) trim to non-empty strings, and then each output record carries
exactly those resolved values; in particular a task with all alternates
missing sanitizes successfully to the placeholders. -/
theorem sanitizeTasks_resolved_characterization (tasks : List TaskObj) :
    ((sanitizeTasks tasks).isOk = true ↔
      ∀ t ∈ tasks, resolvedId t ≠ [] ∧ resolvedSummary t ≠ [] ∧ resolvedLastUpdate t ≠ []) ∧
    ((∀ t ∈ tasks, resolvedId t ≠ [] ∧ resolvedSummary t ≠ [] ∧ resolvedLastUpdate t ≠ []) →
      sanitizeTasks tasks =
        .ok (tasks.map fun t => ⟨resolvedId t, resolvedSummary t, resolvedLastUpdate t⟩)) := by
  induction tasks with
  | nil =>
    refine ⟨?_, fun _ => rfl⟩
    simp [show sanitizeTasks ([] : List TaskObj) = .ok [] from rfl, Except.isOk, Except.toBool]
  | cons t rest ih =>
    by_cases ht : resolvedId t ≠ [] ∧ resolvedSummary t ≠ [] ∧ resolvedLastUpdate t ≠ []
    · have hok := sanitizeTask_ok t ht
      constructor
      · rw [show ((sanitizeTasks (t :: rest)).isOk = true ↔ (sanitizeTasks rest).isOk = true)
          from ?_]
        · constructor
          · intro hr u hu
            rcases List.mem_cons.mp hu with h | h
            · exact h ▸ ht
            · exact (ih.1.mp hr) u h
          · intro hall
            exact ih.1.mpr (fun u hu => hall u (List.mem_cons_of_mem _ hu))
        · unfold sanitizeTasks at *
          rw [List.mapM_cons, hok]
          cases hrest : rest.mapM sanitizeTask with
          | error e => simp [hrest, Bind.bind, Except.bind, Except.isOk, Except.toBool]
          | ok rs =>
            simp [hrest, Bind.bind, Except.bind, Except.isOk, Except.toBool, pure, Except.pure]
      · intro hall
        have hrest := ih.2 (fun u hu => hall u (List.mem_cons_of_mem _ hu))
        unfold sanitizeTasks at *
        rw [List.mapM_cons, hok, hrest]
        simp [Bind.bind, Except.bind, pure, Except.pure]
    · obtain ⟨e, he⟩ := sanitizeTask_error t ht
      constructor
      · unfold sanitizeTasks
        rw [List.mapM_cons, he]
        simp only [Bind.bind, Except.bind, Except.isOk, Except.toBool]
        constructor
        · intro h; cases h
        · intro hall
          exact absurd (hall t (List.mem_cons_self t rest)) ht
      · intro hall
        exact absurd (hall t (List.mem_cons_self t rest)) ht

/-- Witness for C2 amended at a concrete task object with a padded string
id, a title standing in for the summary, and a numeric notes field. -/
theorem sanitizeTasks_resolved_witness :
    sanitizeTasks [sampleTaskObj] =
      .ok ([sampleTaskObj].map fun t =>
        ⟨resolvedId t, resolvedSummary t, resolvedLastUpdate t⟩) := by
  exact (sanitizeTasks_resolved_characterization [sampleTaskObj]).2 (by decide)

/-- C8: a finite positive row override replaces the default partitions with
one custom partition whose per-action count is the floor of the requested
value divided by the number of action kinds, and when that floor is zero
the override fails with a configuration error and the invocation builds no
jobs. -/
theorem parseOverride_custom_partition (v : Int) (choice : Nat → Nat) (hv : 0 < v) :
    (parseOverride (some (some v)) =
      if Int.fdiv v ACTIONS.length ≤ 0 then
        .error "--rows value too small to cover all action types"
      else
        .ok [⟨"custom", (Int.fdiv v ACTIONS.length).toNat,
             "intent-dataset-" ++ toString v ++ ".jsonl"⟩]) ∧
    (Int.fdiv v ACTIONS.length ≤ 0 →
      mainJobPlan (some (some v)) choice =
        .error "--rows value too small to cover all action types") := by
  have hnot : ¬ v ≤ 0 := by omega
  constructor
  · simp [parseOverride, hnot]
  · intro hfloor
    simp [mainJobPlan, parseOverride, hnot, hfloor]

/-- Witness for C8 at a requested value of 3 rows with 5 action kinds: the
floor is zero, so the override and the whole plan fail with the
configuration error. -/
theorem parseOverride_custom_partition_witness :
    parseOverride (some (some 3)) =
      .error "--rows value too small to cover all action types" ∧
    mainJobPlan (some (some 3)) (fun _ => 0) =
      .error "--rows value too small to cover all action types" := by
  have h := parseOverride_custom_partition 3 (fun _ => 0) (by decide)
  refine ⟨?_, h.2 (by decide)⟩
  rw [h.1, if_pos (show Int.fdiv 3 ACTIONS.length ≤ 0 by decide)]

lemma mapM_error_of_mem {β : Type} (f : Job → Except String β) (jobs : List Job) (j : Job)
    (hj : j ∈ jobs) (e : String) (he : f j = .error e) :
    ∃ msg, jobs.mapM f = .error msg := by
  induction jobs with
  | nil => cases hj
  | cons a rest ih =>
    rw [List.mapM_cons]
    cases ha : f a with
    | error msg => exact ⟨msg, by simp [ha, Bind.bind, Except.bind]⟩
    | ok b =>
      rcases List.mem_cons.mp hj with h | h
      · rw [h] at he; rw [he] at ha; cases ha
      · obtain ⟨msg, hm⟩ := ih h
        have hm' : List.mapM.loop f rest [] = Except.error msg := hm
        exact ⟨msg, by simp [ha, Bind.bind, Except.bind, hm']⟩

/-- C1: when every allowed attempt for some job fails (the budget being 4),
the retry loop makes exactly 4 attempts, rethrows the last error
unrecovered, and the partition produces no output artifact at all. -/
theorem run_aborts_after_exhausted_attempts
    (dev : JStr) (oracle : Job → Nat → Except String GenerationResult)
    (jobs : List Job) (j : Job) (hj : j ∈ jobs)
    (hfail : ∀ a, 1 ≤ a → a ≤ MAX_ATTEMPTS → ∃ e, oracle j a = .error e) :
    ((runJobAttempts (oracle j)).2 = 4 ∧
     ∃ e, oracle j MAX_ATTEMPTS = .error e ∧ runJobAttempts (oracle j) = (.error e, 4)) ∧
    partitionArtifacts dev oracle jobs = none := by
  obtain ⟨e1, h1⟩ := hfail 1 (by omega) (by decide)
  obtain ⟨e2, h2⟩ := hfail 2 (by omega) (by decide)
  obtain ⟨e3, h3⟩ := hfail 3 (by omega) (by decide)
  obtain ⟨e4, h4⟩ := hfail 4 (by omega) (by decide)
  have hrun : runJobAttempts (oracle j) = (.error e4, 4) := by
    simp [runJobAttempts, MAX_ATTEMPTS, attemptGo, h1, h2, h3, h4]
  refine ⟨⟨by rw [hrun], e4, h4, hrun⟩, ?_⟩
  obtain ⟨msg, hm⟩ := mapM_error_of_mem (fun u => (runJobAttempts (oracle u)).1) jobs j hj e4
    (by simp [hrun])
  have hm' : List.mapM.loop (fun u => (runJobAttempts (oracle u)).1) jobs [] =
      Except.error msg := hm
  simp [partitionArtifacts, runJobsRun, hm']

/-- Witness for C1: an oracle that always returns unusable text aborts the
run after exactly 4 attempts and the partition writes nothing. -/
theorem run_aborts_witness :
    (runJobAttempts (oracleAlwaysFails sampleJob)).2 = 4 ∧
    partitionArtifacts [] oracleAlwaysFails [sampleJob] = none := by
  have h := run_aborts_after_exhausted_attempts [] oracleAlwaysFails [sampleJob] sampleJob
    (List.mem_singleton.mpr rfl) (fun a _ _ => ⟨"not JSON", rfl⟩)
  exact ⟨h.1.1, h.2⟩

lemma jsTrim_idem (s : JStr) : jsTrim (jsTrim s) = jsTrim s := by
  unfold jsTrim
  have h1 : List.dropWhile isWsChar (List.rdropWhile isWsChar (List.dropWhile isWsChar s)) =
      List.rdropWhile isWsChar (List.dropWhile isWsChar s) := by
    rcases hr : List.rdropWhile isWsChar (List.dropWhile isWsChar s) with _ | ⟨c, rest⟩
    · rfl
    · obtain ⟨t, ht⟩ := List.rdropWhile_prefix isWsChar (List.dropWhile isWsChar s)
      have hx : List.dropWhile isWsChar s = c :: (rest ++ t) := by
        rw [← ht, hr]; simp
      have hc : isWsChar c = false := by
        have hne : List.dropWhile isWsChar s ≠ [] := by rw [hx]; simp
        have hh := List.head_dropWhile_not isWsChar s hne
        simpa [hx] using hh
      simp [List.dropWhile_cons, hc]
  rw [h1, List.rdropWhile_idempotent]

lemma normalized_pushFresh (m : MessageRecord) : normalizedMsg (pushFreshMessage m) := by
  refine ⟨(jsTrim_idem m.content).symm, ?_⟩
  intro t ht
  unfold pushFreshMessage at ht
  rcases hm : m.thinking with _ | u
  · rw [hm] at ht; cases ht
  · rw [hm] at ht
    by_cases hu : u = []
    · simp [hu] at ht
    · by_cases hu2 : jsTrim u = []
      · simp [hu, hu2] at ht
      · simp only [hu, hu2, if_false, Option.some.injEq] at ht
        rw [← ht]
        exact ⟨(jsTrim_idem u).symm, hu2⟩

lemma pushFresh_of_normalized (m : MessageRecord) (h : normalizedMsg m) :
    pushFreshMessage m = m := by
  obtain ⟨hc, ht⟩ := h
  rcases m with ⟨content, role, thinking⟩
  replace hc : content = jsTrim content := hc
  rcases thinking with _ | t
  · show MessageRecord.mk (jsTrim content) role none = MessageRecord.mk content role none
    rw [← hc]
  · obtain ⟨htt, hne⟩ := ht t rfl
    show MessageRecord.mk (jsTrim content) role
        (if t = [] then none else if jsTrim t = [] then none else some (jsTrim t)) =
      MessageRecord.mk content role (some t)
    rw [← hc, ← htt, if_neg hne, if_neg hne]

lemma normalized_mergeInto (last current : MessageRecord) (h : normalizedMsg last) :
    normalizedMsg (mergeIntoLast last current) := by
  obtain ⟨hc, hth⟩ := h
  rcases last with ⟨lc, lr, lth⟩
  rcases current with ⟨cc, cr, cth⟩
  replace hth : ∀ u, lth = some u → (u = jsTrim u ∧ u ≠ []) := hth
  refine ⟨(jsTrim_idem (lc ++ '\n' :: cc)).symm, ?_⟩
  intro t ht
  rcases cth with _ | ct
  · exact hth t ht
  · rcases lth with _ | lt
    · replace ht : (if ct = [] then (none : Option JStr)
          else if jsTrim ct = [] then none else some (jsTrim ct)) = some t := ht
      by_cases hct : ct = []
      · rw [if_pos hct] at ht; cases ht
      · rw [if_neg hct] at ht
        by_cases hcomb : jsTrim ct = []
        · rw [if_pos hcomb] at ht; cases ht
        · rw [if_neg hcomb] at ht
          injection ht with ht
          rw [← ht]
          exact ⟨(jsTrim_idem ct).symm, hcomb⟩
    · obtain ⟨hltt, hltne⟩ := hth lt rfl
      replace ht : (if ct = [] then some lt
          else if (if lt = [] then jsTrim ct else jsTrim (lt ++ '\n' :: ct)) = [] then none
          else some (if lt = [] then jsTrim ct else jsTrim (lt ++ '\n' :: ct))) = some t := ht
      rw [if_neg hltne] at ht
      by_cases hct : ct = []
      · rw [if_pos hct] at ht
        injection ht with ht
        rw [← ht]
        exact ⟨hltt, hltne⟩
      · rw [if_neg hct] at ht
        by_cases hcomb : jsTrim (lt ++ '\n' :: ct) = []
        · rw [if_pos hcomb] at ht; cases ht
        · rw [if_neg hcomb] at ht
          injection ht with ht
          rw [← ht]
          exact ⟨(jsTrim_idem (lt ++ '\n' :: ct)).symm, hcomb⟩

lemma mergeAux_invariant : ∀ (msgs acc : List MessageRecord),
    (∀ m ∈ acc, normalizedMsg m) →
    List.Chain' (fun a b => a.role ≠ b.role) acc →
    (∀ m ∈ mergeMessagesAux acc msgs, normalizedMsg m) ∧
    rolesAlternate (mergeMessagesAux acc msgs) := by
  intro msgs
  induction msgs with
  | nil =>
    intro acc hnorm hch
    have hrev : mergeMessagesAux acc [] = acc.reverse := by cases acc <;> rfl
    rw [hrev]
    refine ⟨fun m hm => hnorm m (List.mem_reverse.mp hm), ?_⟩
    exact List.chain'_reverse.mpr (List.Chain'.imp (fun a b hab => Ne.symm hab) hch)
  | cons current rest ih =>
    intro acc hnorm hch
    rcases acc with _ | ⟨last, accRest⟩
    · have hstep : mergeMessagesAux [] (current :: rest) =
          mergeMessagesAux [pushFreshMessage current] rest := rfl
      rw [hstep]
      refine ih [pushFreshMessage current] ?_ (List.chain'_singleton _)
      intro m hm
      rcases List.mem_singleton.mp hm with hm
      exact hm ▸ normalized_pushFresh current
    · by_cases hrole : last.role = current.role
      · have hstep : mergeMessagesAux (last :: accRest) (current :: rest) =
            mergeMessagesAux (mergeIntoLast last current :: accRest) rest := by
          simp [mergeMessagesAux, hrole]
        rw [hstep]
        refine ih (mergeIntoLast last current :: accRest) ?_ ?_
        · intro m hm
          rcases List.mem_cons.mp hm with hm | hm
          · exact hm ▸ normalized_mergeInto last current (hnorm last (by simp))
          · exact hnorm m (List.mem_cons_of_mem _ hm)
        · rw [List.chain'_cons']
          refine ⟨?_, (List.chain'_cons'.mp hch).2⟩
          intro y hy
          have hrel := (List.chain'_cons'.mp hch).1 y hy
          simpa [mergeIntoLast] using hrel
      · have hstep : mergeMessagesAux (last :: accRest) (current :: rest) =
            mergeMessagesAux (pushFreshMessage current :: last :: accRest) rest := by
          simp [mergeMessagesAux, hrole]
        rw [hstep]
        refine ih (pushFreshMessage current :: last :: accRest) ?_ ?_
        · intro m hm
          rcases List.mem_cons.mp hm with hm | hm
          · exact hm ▸ normalized_pushFresh current
          · exact hnorm m hm
        · rw [List.chain'_cons']
          refine ⟨?_, hch⟩
          intro y hy
          simp only [List.head?_cons, Option.mem_def, Option.some.injEq] at hy
          rw [← hy]
          simpa [pushFreshMessage] using fun hcr => hrole hcr.symm

lemma mergeAux_id : ∀ (msgs acc : List MessageRecord),
    (∀ m ∈ msgs, normalizedMsg m) →
    List.Chain' (fun a b => a.role ≠ b.role) msgs →
    (∀ a ∈ acc.head?, ∀ b ∈ msgs.head?, a.role ≠ b.role) →
    mergeMessagesAux acc msgs = acc.reverse ++ msgs := by
  intro msgs
  induction msgs with
  | nil =>
    intro acc _ _ _
    have hrev : mergeMessagesAux acc [] = acc.reverse := by cases acc <;> rfl
    rw [hrev, List.append_nil]
  | cons current rest ih =>
    intro acc hnorm hch hsep
    have hpf : pushFreshMessage current = current :=
      pushFresh_of_normalized current (hnorm current (by simp))
    have hrest : ∀ m ∈ rest, normalizedMsg m :=
      fun m hm => hnorm m (List.mem_cons_of_mem _ hm)
    have hchrest : List.Chain' (fun a b => a.role ≠ b.role) rest :=
      (List.chain'_cons'.mp hch).2
    have hcurrest : ∀ b ∈ rest.head?, current.role ≠ b.role :=
      (List.chain'_cons'.mp hch).1
    rcases acc with _ | ⟨last, accRest⟩
    · have hstep : mergeMessagesAux [] (current :: rest) =
          mergeMessagesAux [pushFreshMessage current] rest := rfl
      rw [hstep, hpf, ih [current] hrest hchrest ?_]
      · simp
      · intro a ha b hb
        simp only [List.head?_cons, Option.mem_def, Option.some.injEq] at ha
        exact ha ▸ hcurrest b hb
    · have hne : last.role ≠ current.role := hsep last (by simp) current (by simp)
      have hstep : mergeMessagesAux (last :: accRest) (current :: rest) =
          mergeMessagesAux (pushFreshMessage current :: last :: accRest) rest := by
        simp [mergeMessagesAux, hne]
      rw [hstep, hpf, ih (current :: last :: accRest) hrest hchrest ?_]
      · simp
      · intro a ha b hb
        simp only [List.head?_cons, Option.mem_def, Option.some.injEq] at ha
        exact ha ▸ hcurrest b hb

/-- C4: merging an already-merged message sequence is a no-op. -/
theorem mergeMessages_idempotent (messages : List MessageRecord) :
    mergeMessages (mergeMessages messages) = mergeMessages messages := by
  have hinv := mergeAux_invariant messages [] (by intro m hm; cases hm) List.chain'_nil
  show mergeMessagesAux [] (mergeMessagesAux [] messages) = mergeMessagesAux [] messages
  rw [mergeAux_id (mergeMessagesAux [] messages) [] hinv.1 hinv.2
    (by intro a ha; cases ha)]
  simp

/-- C9: every output message of the merge has trimmed content and a
thinking attachment that is either absent or a trimmed non-empty string
(whitespace-only thinking becomes null even without any neighbour to merge
with), so merging is not the identity on untrimmed input. -/
theorem mergeMessages_normalizes_output :
    (∀ messages, ∀ m ∈ mergeMessages messages,
      m.content = jsTrim m.content ∧
      ∀ t, m.thinking = some t → (t = jsTrim t ∧ t ≠ [])) ∧
    mergeMessages [⟨" hi ".data, .user, some "  ".data⟩] ≠
      [⟨" hi ".data, .user, some "  ".data⟩] := by
  constructor
  · intro messages m hm
    exact (mergeAux_invariant messages [] (by intro m hm; cases hm) List.chain'_nil).1 m hm
  · decide

lemma count_set_add [DecidableEq α] (l : List α) (i : Nat) (h : i < l.length) (b x : α) :
    (l.set i b).count x + (if l[i] = x then 1 else 0) =
      l.count x + (if b = x then 1 else 0) := by
  induction l generalizing i with
  | nil => simp at h
  | cons a as ih =>
    cases i with
    | zero =>
      rw [List.set_cons_zero]
      simp only [List.count_cons, List.getElem_cons_zero, beq_iff_eq]
      by_cases ha : a = x <;> by_cases hb : b = x <;> simp [ha, hb]
    | succ n =>
      rw [List.set_cons_succ]
      have hn : n < as.length := by simpa using h
      have := ih n hn
      simp only [List.count_cons, List.getElem_cons_succ, beq_iff_eq]
      by_cases ha : a = x <;> simp [ha] <;> omega

lemma count_swapAt [DecidableEq α] (l : List α) (i j : Nat) (x : α) :
    (swapAt l i j).count x = l.count x := by
  unfold swapAt
  cases hi : l[i]? with
  | none => rfl
  | some a =>
    cases hj : l[j]? with
    | none => rfl
    | some b =>
      show ((l.set i b).set j a).count x = l.count x
      obtain ⟨hib, hia⟩ := List.getElem?_eq_some.mp hi
      obtain ⟨hjb, hjab⟩ := List.getElem?_eq_some.mp hj
      have hjb2 : j < (l.set i b).length := by simpa using hjb
      have hAj : (l.set i b)[j] = b := by
        by_cases hij : i = j
        · subst hij
          exact List.getElem_set_self (by simpa using hjb)
        · rw [List.getElem_set_ne hij]
          exact hjab
      have h1 := count_set_add (l.set i b) j hjb2 a x
      have h2 := count_set_add l i hib b x
      rw [hAj] at h1
      rw [hia] at h2
      split_ifs at h1 h2 <;> omega

lemma count_shuffleGo [DecidableEq α] (choice : Nat → Nat) (x : α) :
    ∀ (n : Nat) (l : List α), (shuffleGo choice n l).count x = l.count x := by
  intro n
  induction n with
  | zero => intro l; rfl
  | succ m ih =>
    intro l
    show (shuffleGo choice m (swapAt l (m + 1) (choice (m + 1) % (m + 2)))).count x = _
    rw [ih, count_swapAt]

lemma shuffle_perm [DecidableEq α] (choice : Nat → Nat) (l : List α) :
    (shuffle choice l).Perm l :=
  List.perm_iff_count.mpr (fun x => count_shuffleGo choice x (l.length - 1) l)

lemma length_buildJobsList (p : PartitionConfig) :
    ∀ (acts : List ActionKind) (g : Nat),
      (buildJobsList p acts g).length = acts.length * p.perAction := by
  intro acts
  induction acts with
  | nil => intro g; simp [buildJobsList]
  | cons a rest ih =>
    intro g
    show (jobsForAction p a g ++ buildJobsList p rest (g + p.perAction)).length = _
    rw [List.length_append, ih]
    simp [jobsForAction, Nat.succ_mul]
    omega

lemma countP_jobsForAction (p : PartitionConfig) (b a : ActionKind) (g : Nat) :
    (jobsForAction p b g).countP (fun j => j.action == a) =
      if b = a then p.perAction else 0 := by
  unfold jobsForAction
  rw [List.countP_map]
  have hfun : ((fun (j : Job) => j.action == a) ∘ (fun i =>
      ({ action := b
         partition := p.name
         theme := (THEMES b).getD (i % (THEMES b).length) ""
         index := i
         globalIndex := g + i
         messageStyle := MESSAGE_STYLES.getD (i % MESSAGE_STYLES.length) ⟨"", "", ""⟩ } : Job))) =
      (fun _ => (b == a)) := by
    funext i
    rfl
  rw [hfun]
  by_cases hba : b = a
  · rw [if_pos hba]
    have hb : (fun (_ : Nat) => (b == a)) = fun _ => true := by
      funext i; simp [hba]
    rw [hb]
    rw [congrFun (List.countP_true (α := Nat)) (List.range p.perAction), List.length_range]
  · rw [if_neg hba]
    have hb : (fun (_ : Nat) => (b == a)) = fun _ => false := by
      funext i; simp [hba]
    rw [hb]
    simp [congrFun (List.countP_false (α := Nat)) (List.range p.perAction)]

lemma countP_buildJobsList (p : PartitionConfig) (a : ActionKind) :
    ∀ (acts : List ActionKind) (g : Nat),
      (buildJobsList p acts g).countP (fun j => j.action == a) =
        acts.count a * p.perAction := by
  intro acts
  induction acts with
  | nil => intro g; simp [buildJobsList]
  | cons b rest ih =>
    intro g
    show ((jobsForAction p b g ++ buildJobsList p rest (g + p.perAction)).countP _) = _
    rw [List.countP_append, ih, countP_jobsForAction]
    rw [List.count_cons]
    by_cases hba : b = a
    · simp [hba, Nat.add_mul, Nat.add_comm]
    · have hbeq : (b == a) = false := by simp [hba]
      simp [hba, hbeq]

/-- C6: for any per-action count and any random draws of the shuffle, the
job builder produces exactly perAction x (number of action kinds) jobs,
with exactly perAction jobs of every action kind. -/
theorem buildJobs_counts (p : PartitionConfig) (offset : Nat) (choice : Nat → Nat) :
    (buildJobs p offset choice).length = p.perAction * ACTIONS.length ∧
    ∀ a : ActionKind,
      (buildJobs p offset choice).countP (fun j => j.action == a) = p.perAction := by
  have hperm := shuffle_perm choice (buildJobsList p ACTIONS offset)
  constructor
  · show (shuffle choice (buildJobsList p ACTIONS offset)).length = _
    rw [hperm.length_eq, length_buildJobsList]
    exact Nat.mul_comm _ _
  · intro a
    show (shuffle choice (buildJobsList p ACTIONS offset)).countP _ = _
    rw [hperm.countP_eq, countP_buildJobsList]
    have hone : ACTIONS.count a = 1 := by cases a <;> rfl
    rw [hone, Nat.one_mul]

lemma workerStep_inv {α : Type} (jobs : List Job) (f : Job → α) (s : SchedState α) (w : Nat)
    (h1 : s.results.length = jobs.length)
    (h2 : ∀ (v : Nat) (i : Nat), s.claimed[v]? = some (some i) → i < jobs.length)
    (h3 : ∀ i r, s.results[i]? = some (some r) → ∃ h : i < jobs.length, r = f jobs[i]) :
    ((workerStep jobs f s w).results.length = jobs.length) ∧
    (∀ (v : Nat) (i : Nat), (workerStep jobs f s w).claimed[v]? = some (some i) →
      i < jobs.length) ∧
    (∀ i r, (workerStep jobs f s w).results[i]? = some (some r) →
      ∃ h : i < jobs.length, r = f jobs[i]) := by
  cases hw : s.claimed[w]? with
  | none =>
    have hstep : workerStep jobs f s w = s := by simp [workerStep, hw]
    rw [hstep]
    exact ⟨h1, h2, h3⟩
  | some c =>
    cases c with
    | none =>
      by_cases hptr : s.jobPtr < jobs.length
      · have hstep : workerStep jobs f s w =
            SchedState.mk (s.jobPtr + 1) (s.claimed.set w (some s.jobPtr)) s.results := by
          simp [workerStep, hw, hptr]
        rw [hstep]
        refine ⟨h1, ?_, h3⟩
        intro v i hv
        rw [show (SchedState.mk (s.jobPtr + 1) (s.claimed.set w (some s.jobPtr))
            s.results).claimed = s.claimed.set w (some s.jobPtr) from rfl,
          List.getElem?_set] at hv
        by_cases hwv : w = v
        · rw [if_pos hwv] at hv
          by_cases hlt : w < s.claimed.length
          · rw [if_pos hlt] at hv
            injection hv with hv
            injection hv with hv
            omega
          · rw [if_neg hlt] at hv
            cases hv
        · rw [if_neg hwv] at hv
          exact h2 v i hv
      · have hstep : workerStep jobs f s w = s := by simp [workerStep, hw, hptr]
        rw [hstep]
        exact ⟨h1, h2, h3⟩
    | some i =>
      cases hji : jobs[i]? with
      | none =>
        have hstep : workerStep jobs f s w =
            SchedState.mk s.jobPtr (s.claimed.set w none) s.results := by
          simp [workerStep, hw, hji]
        rw [hstep]
        refine ⟨h1, ?_, h3⟩
        intro v k hv
        rw [show (SchedState.mk s.jobPtr (s.claimed.set w none) s.results).claimed =
            s.claimed.set w none from rfl, List.getElem?_set] at hv
        by_cases hwv : w = v
        · rw [if_pos hwv] at hv
          by_cases hlt : w < s.claimed.length
          · rw [if_pos hlt] at hv
            injection hv with hv
            cases hv
          · rw [if_neg hlt] at hv
            cases hv
        · rw [if_neg hwv] at hv
          exact h2 v k hv
      | some job =>
        obtain ⟨hib, hival⟩ := List.getElem?_eq_some.mp hji
        have hstep : workerStep jobs f s w =
            SchedState.mk s.jobPtr (s.claimed.set w none)
              (s.results.set i (some (f job))) := by
          simp [workerStep, hw, hji]
        rw [hstep]
        refine ⟨by simpa using h1, ?_, ?_⟩
        · intro v k hv
          rw [show (SchedState.mk s.jobPtr (s.claimed.set w none)
              (s.results.set i (some (f job)))).claimed = s.claimed.set w none from rfl,
            List.getElem?_set] at hv
          by_cases hwv : w = v
          · rw [if_pos hwv] at hv
            by_cases hlt : w < s.claimed.length
            · rw [if_pos hlt] at hv
              injection hv with hv
              cases hv
            · rw [if_neg hlt] at hv
              cases hv
          · rw [if_neg hwv] at hv
            exact h2 v k hv
        · intro k r hk
          rw [show (SchedState.mk s.jobPtr (s.claimed.set w none)
              (s.results.set i (some (f job)))).results =
              s.results.set i (some (f job)) from rfl, List.getElem?_set] at hk
          by_cases hik : i = k
          · rw [if_pos hik] at hk
            by_cases hlt : i < s.results.length
            · rw [if_pos hlt] at hk
              injection hk with hk
              injection hk with hk
              subst hik
              refine ⟨hib, ?_⟩
              rw [hival]
              exact hk.symm
            · rw [if_neg hlt] at hk
              cases hk
          · rw [if_neg hik] at hk
            exact h3 k r hk

lemma foldl_workerStep_inv {α : Type} (jobs : List Job) (f : Job → α) :
    ∀ (sched : List Nat) (s : SchedState α),
    (s.results.length = jobs.length) →
    (∀ (v : Nat) (i : Nat), s.claimed[v]? = some (some i) → i < jobs.length) →
    (∀ i r, s.results[i]? = some (some r) → ∃ h : i < jobs.length, r = f jobs[i]) →
    ((sched.foldl (workerStep jobs f) s).results.length = jobs.length) ∧
    (∀ (v : Nat) (i : Nat), (sched.foldl (workerStep jobs f) s).claimed[v]? = some (some i) →
      i < jobs.length) ∧
    (∀ i r, (sched.foldl (workerStep jobs f) s).results[i]? = some (some r) →
      ∃ h : i < jobs.length, r = f jobs[i]) := by
  intro sched
  induction sched with
  | nil => intro s h1 h2 h3; exact ⟨h1, h2, h3⟩
  | cons w rest ih =>
    intro s h1 h2 h3
    obtain ⟨h1s, h2s, h3s⟩ := workerStep_inv jobs f s w h1 h2 h3
    exact ih (workerStep jobs f s w) h1s h2s h3s

/-- C5: under any interleaving of any number of workers (at least two), the
results buffer keeps every validated result at its own job index, so a
fully completed run yields the results in job-build order regardless of
which job finished first. -/
theorem scheduler_writes_in_order (jobs : List Job) (f : Job → GenerationResult)
    (workers : Nat) (sched : List Nat) (hW : 2 ≤ workers) :
    ((runSched jobs f workers sched).results.length = jobs.length) ∧
    (∀ i r, (runSched jobs f workers sched).results[i]? = some (some r) →
      ∃ h : i < jobs.length, r = f jobs[i]) ∧
    ((∀ o ∈ (runSched jobs f workers sched).results, o.isSome = true) →
      (runSched jobs f workers sched).results = jobs.map (fun j => some (f j))) := by
  have hinit1 : (initSched workers jobs : SchedState GenerationResult).results.length =
      jobs.length := List.length_replicate ..
  have hinit2 : ∀ (v : Nat) (i : Nat),
      (initSched workers jobs : SchedState GenerationResult).claimed[v]? =
        some (some i) → i < jobs.length := by
    intro v i hv
    rw [show (initSched workers jobs : SchedState GenerationResult).claimed =
      List.replicate workers none from rfl, List.getElem?_replicate] at hv
    by_cases hvw : v < workers
    · rw [if_pos hvw] at hv
      injection hv with hv
      cases hv
    · rw [if_neg hvw] at hv
      cases hv
  have hinit3 : ∀ i r,
      (initSched workers jobs : SchedState GenerationResult).results[i]? =
        some (some r) → ∃ h : i < jobs.length, r = f jobs[i] := by
    intro i r hv
    rw [show (initSched workers jobs : SchedState GenerationResult).results =
      List.replicate jobs.length none from rfl, List.getElem?_replicate] at hv
    by_cases hvl : i < jobs.length
    · rw [if_pos hvl] at hv
      injection hv with hv
      cases hv
    · rw [if_neg hvl] at hv
      cases hv
  obtain ⟨hf1x, hf2x, hf3x⟩ :=
    foldl_workerStep_inv jobs f sched (initSched workers jobs) hinit1 hinit2 hinit3
  have hf1 : (runSched jobs f workers sched).results.length = jobs.length := hf1x
  have hf3 : ∀ i r, (runSched jobs f workers sched).results[i]? = some (some r) →
      ∃ h : i < jobs.length, r = f jobs[i] := hf3x
  refine ⟨hf1, hf3, ?_⟩
  intro hall
  apply List.ext_getElem?
  intro i
  rw [List.getElem?_map]
  by_cases hi : i < jobs.length
  · have hlt : i < (runSched jobs f workers sched).results.length := by
      rw [hf1]; exact hi
    have ho : (runSched jobs f workers sched).results[i]? =
        some ((runSched jobs f workers sched).results[i]) := List.getElem?_eq_getElem hlt
    have hmem : (runSched jobs f workers sched).results[i] ∈
        (runSched jobs f workers sched).results := List.getElem_mem ..
    obtain ⟨r, hr⟩ := Option.isSome_iff_exists.mp (hall _ hmem)
    obtain ⟨hh, hrr⟩ := hf3 i r (by rw [ho, hr])
    rw [ho, hr, List.getElem?_eq_getElem hi]
    simp [hrr]
  · have h1n : (runSched jobs f workers sched).results[i]? = none := by
      rw [List.getElem?_eq_none_iff, hf1]
      omega
    have h2n : jobs[i]? = (none : Option Job) := by
      rw [List.getElem?_eq_none_iff]
      omega
    rw [h1n, h2n]
    rfl

/-- Witness for C5 with two workers and two jobs, under the interleaving in
which the second job completes before the first: the buffer still holds the
results in job-build order. -/
theorem scheduler_writes_in_order_witness :
    (runSched [sampleJob, sampleJob2] sampleResultFor 2 [0, 1, 1, 0]).results =
      [some (sampleResultFor sampleJob), some (sampleResultFor sampleJob2)] := by
  have h := scheduler_writes_in_order [sampleJob, sampleJob2] sampleResultFor 2 [0, 1, 1, 0]
    (by omega)
  have hall : ∀ o ∈ (runSched [sampleJob, sampleJob2] sampleResultFor 2 [0, 1, 1, 0]).results,
      o.isSome = true := by decide
  rw [h.2.2 hall]
  rfl

lemma findIdx?_eq_some_decomp (p : Char → Bool) :
    ∀ (l : JStr) (i k : Nat),
      List.findIdx? p l i = some k ↔
        ∃ a x b, l = a ++ x :: b ∧ i + a.length = k ∧ p x = true ∧
          ∀ y ∈ a, p y = false := by
  intro l
  induction l with
  | nil =>
    intro i k
    simp [List.findIdx?]
  | cons c rest ih =>
    intro i k
    rw [List.findIdx?_cons]
    by_cases hpc : p c = true
    · rw [if_pos hpc]
      constructor
      · intro h
        injection h with h
        exact ⟨[], c, rest, rfl, by simpa using h, hpc, by simp⟩
      · rintro ⟨a, x, b, heq, hlen, hx, ha⟩
        rcases a with _ | ⟨a0, a1⟩
        · obtain ⟨hcx, hrb⟩ : c = x ∧ rest = b := by simpa using heq
          simp at hlen
          rw [hlen]
        · have hc0 : c = a0 := by
            have := congrArg (fun u => u.head?) heq
            simpa using this
          have hfalse : p a0 = false := ha a0 (by simp)
          rw [← hc0] at hfalse
          rw [hpc] at hfalse
          cases hfalse
    · rw [if_neg hpc]
      have hpcf : p c = false := by simpa using hpc
      rw [ih (i + 1) k]
      constructor
      · rintro ⟨a, x, b, heq, hlen, hx, ha⟩
        refine ⟨c :: a, x, b, by rw [heq]; rfl, by simp; omega, hx, ?_⟩
        intro y hy
        rcases List.mem_cons.mp hy with hy | hy
        · rw [hy]; exact hpcf
        · exact ha y hy
      · rintro ⟨a, x, b, heq, hlen, hx, ha⟩
        rcases a with _ | ⟨a0, a1⟩
        · obtain ⟨hcx, hrb⟩ : c = x ∧ rest = b := by simpa using heq
          rw [← hcx] at hx
          rw [hpcf] at hx
          cases hx
        · obtain ⟨hca, hrest⟩ : c = a0 ∧ rest = a1 ++ x :: b := by simpa using heq
          refine ⟨a1, x, b, hrest, ?_, hx,
            fun y hy => ha y (List.mem_cons_of_mem _ hy)⟩
          simp only [List.length_cons] at hlen
          omega

lemma idCall_check_iff (callName pre : JStr) (hpre : pre = callName ++ ['('])
    (final : JStr) (tasks : List TaskRecord) :
    ((if pre.isPrefixOf final && [')'].isSuffixOf final then
        match List.findIdx? (fun c => c == ',') ((final.drop pre.length).dropLast) with
        | none => false
        | some commaIndex =>
          tasks.any (fun task =>
            task.id == jsTrim (((final.drop pre.length).dropLast).take commaIndex))
      else false) = true) ↔ SpecCallGrammar callName final tasks := by
  by_cases hmain : (pre.isPrefixOf final && [')'].isSuffixOf final) = true
  case neg =>
    rw [if_neg hmain]
    constructor
    · intro h; cases h
    · rintro ⟨a, b, heq, hna, task, htask, htrim⟩
      exfalso
      apply hmain
      rw [Bool.and_eq_true]
      constructor
      · rw [List.isPrefixOf_iff_prefix]
        refine ⟨a ++ ',' :: b ++ [')'], ?_⟩
        rw [heq, hpre]
        simp
      · rw [List.isSuffixOf_iff_suffix]
        refine ⟨callName ++ '(' :: (a ++ ',' :: b), ?_⟩
        rw [heq]
        simp
  case pos =>
    rw [if_pos hmain]
    have hsplit : pre.isPrefixOf final = true ∧ [')'].isSuffixOf final = true := by
      simpa [Bool.and_eq_true] using hmain
    obtain ⟨hpref, hsuf⟩ := hsplit
    obtain ⟨rest, hrest⟩ := List.isPrefixOf_iff_prefix.mp hpref
    obtain ⟨t0, ht0⟩ := List.isSuffixOf_iff_suffix.mp hsuf
    have hrestne : rest ≠ [] := by
      intro hnil
      rw [hnil, List.append_nil] at hrest
      have hl1 : final.getLast? = some ')' := by
        rw [← ht0]; exact List.getLast?_concat _
      have hl2 : final.getLast? = some '(' := by
        rw [← hrest, hpre]; exact List.getLast?_concat _
      rw [hl1] at hl2
      injection hl2 with hl2
      exact absurd hl2 (by decide)
    obtain ⟨mid, last, hmid⟩ := (List.eq_nil_or_concat rest).resolve_left hrestne
    rw [List.concat_eq_append] at hmid
    have hfinal : final = pre ++ (mid ++ [last]) := by rw [← hrest, hmid]
    have hlastp : last = ')' := by
      have hl1 : final.getLast? = some ')' := by
        rw [← ht0]; exact List.getLast?_concat _
      have hl2 : final.getLast? = some last := by
        rw [hfinal, ← List.append_assoc]
        exact List.getLast?_concat _
      rw [hl1] at hl2
      injection hl2 with hl2
      exact hl2.symm
    subst hlastp
    have hinside : (final.drop pre.length).dropLast = mid := by
      rw [hfinal, List.drop_left, List.dropLast_concat]
    rw [hinside]
    constructor
    · intro h
      cases hidx : List.findIdx? (fun c => c == ',') mid with
      | none => rw [hidx] at h; cases h
      | some k =>
        rw [hidx] at h
        replace h : tasks.any (fun task => task.id == jsTrim (mid.take k)) = true := h
        obtain ⟨a, x, b, hmideq, hlen, hx, ha⟩ :=
          (findIdx?_eq_some_decomp _ mid 0 k).mp hidx
        have hxc : x = ',' := by simpa using hx
        subst hxc
        have hk : k = a.length := by omega
        have htake : mid.take k = a := by
          rw [hmideq, hk]
          exact List.take_left ..
        rw [htake] at h
        obtain ⟨task, htask, hbeq⟩ := List.any_eq_true.mp h
        have hid : task.id = jsTrim a := by simpa using hbeq
        refine ⟨a, b, ?_, ?_, task, htask, hid.symm⟩
        · rw [hfinal, hmideq, hpre]
          simp
        · intro hmem
          have hfa := ha ',' hmem
          simp at hfa
    · rintro ⟨a, b, heq, hna, task, htask, htrim⟩
      have hmideq : mid = a ++ ',' :: b := by
        have h2 : pre ++ (mid ++ [')']) = pre ++ ((a ++ ',' :: b) ++ [')']) := by
          rw [← hfinal, heq, hpre]
          simp
        exact List.append_cancel_right (List.append_cancel_left h2)
      have hidx : List.findIdx? (fun c => c == ',') mid = some a.length := by
        apply (findIdx?_eq_some_decomp _ mid 0 a.length).mpr
        refine ⟨a, ',', b, hmideq, by omega, by simp, ?_⟩
        intro y hy
        simp only [beq_eq_false_iff_ne, ne_eq]
        intro hyc
        exact hna (hyc ▸ hy)
      rw [hidx]
      show tasks.any (fun task => task.id == jsTrim (mid.take a.length)) = true
      apply List.any_eq_true.mpr
      refine ⟨task, htask, ?_⟩
      have htake : mid.take a.length = a := by
        rw [hmideq]
        exact List.take_left ..
      rw [htake]
      simp [htrim]

/-- C3: for update_task and cancel_task, the final-grammar check accepts a
string exactly when it is the action name, an opening paren, a comma-free
part that trims to the id of some task in the sanitized list, a comma, an
arbitrary remainder and a closing paren; in particular the scenario final
referencing the absent id task-9 is rejected. -/
theorem final_grammar_matches_spec (final : JStr) (tasks : List TaskRecord) :
    (actionValidation .update_task final tasks = true ↔
      SpecCallGrammar "update_task".data final tasks) ∧
    (actionValidation .cancel_task final tasks = true ↔
      SpecCallGrammar "cancel_task".data final tasks) ∧
    actionValidation .update_task "update_task(task-9, ok)".data demoTasks = false := by
  refine ⟨?_, ?_, by decide⟩
  · exact idCall_check_iff "update_task".data "update_task(".data (by decide) final tasks
  · exact idCall_check_iff "cancel_task".data "cancel_task(".data (by decide) final tasks

end SraQ
